import Mathlib

/-!
Verification of the Moorer reverberation engine described in `spec.md`.

The repository ships only the command-line harness (`src/fx/clib/test.cpp`)
and the plugin-editor host glue; the DSP kernel itself (`moorer_verb.hpp`,
included by the harness) is not among the shown sources.  Every definition
below that embeds the kernel is therefore modelled from the specification
text, as indicated by its doc comment.  Samples are modelled as exact
rational numbers.
-/

namespace fx

/-- Modelled from the spec: `DelayLine` (spec §3, §4.1) — missing source
`moorer_verb.hpp`.  A fixed-capacity circular buffer of samples with a
current write index; capacity is the buffer length, fixed at construction. -/
structure DelayLine where
  buffer : List ℚ
  index : Nat
deriving Repr, DecidableEq

/-- Capacity of a delay line: the (fixed) length of its underlying buffer. -/
def DelayLine.capacity (dl : DelayLine) : Nat := dl.buffer.length

/-- Modelled from the spec: `write(sample)` stores the sample at the current
index and advances the index modulo capacity (spec §4.1). -/
def DelayLine.write (dl : DelayLine) (x : ℚ) : DelayLine :=
  { buffer := dl.buffer.set dl.index x, index := (dl.index + 1) % dl.capacity }

/-- Modelled from the spec: `read_at(delay_samples)` returns the sample stored
`delay_samples` behind the current write position, wrapped modulo capacity
(spec §4.1).  Out-of-range reads are clamped to a default of 0, matching the
release-build behaviour described by the spec. -/
def DelayLine.read_at (dl : DelayLine) (d : Nat) : ℚ :=
  dl.buffer.getD ((dl.index + (dl.capacity - d)) % dl.capacity) 0

/-- Writing a whole list of samples in order, oldest first. -/
def DelayLine.writeAll (dl : DelayLine) (xs : List ℚ) : DelayLine :=
  xs.foldl DelayLine.write dl

/-- Modelled from the spec: `CombFilter` (spec §3, §4.2) — missing source
`moorer_verb.hpp`.  A delay line with a one-pole low-pass filter in its
feedback path. -/
structure CombFilter where
  delay : DelayLine
  feedback_gain : ℚ
  damping : ℚ
  filter_state : ℚ
  delay_length : Nat
deriving Repr, DecidableEq

/-- Modelled from the spec: one comb-filter step (spec §4.2).  Reads the
delayed sample, updates the one-pole low-pass state, writes the feedback
sample, and outputs the undamped delayed read. -/
def combStep (c : CombFilter) (u : ℚ) : ℚ × CombFilter :=
  let d := c.delay.read_at c.delay_length
  let filtered := d * (1 - c.damping) + c.filter_state * c.damping
  (d, { c with
          filter_state := filtered,
          delay := c.delay.write (u + filtered * c.feedback_gain) })

/-- Modelled from the spec: `AllPassFilter` (spec §3, §4.3) — missing source
`moorer_verb.hpp`.  A delay line with a fixed feedback/feedforward gain. -/
structure AllPassFilter where
  delay : DelayLine
  gain : ℚ
  delay_length : Nat
deriving Repr, DecidableEq

/-- Modelled from the spec: one all-pass step (spec §4.3, direct form):
output `-gain*input + d`, write `input + gain*d`. -/
def apStep (a : AllPassFilter) (u : ℚ) : ℚ × AllPassFilter :=
  let d := a.delay.read_at a.delay_length
  (-a.gain * u + d, { a with delay := a.delay.write (u + a.gain * d) })

/-- Modelled from the spec: `ReverbNetwork` (spec §3, §4.4) — parallel comb
filters followed by a serial all-pass cascade. -/
structure ReverbNetwork where
  combs : List CombFilter
  allpasses : List AllPassFilter
deriving Repr, DecidableEq

/-- Parallel comb stage: feed the same input to every comb filter and sum
their forward outputs (spec §4.4 step 1). -/
def combParallel : List CombFilter → ℚ → ℚ × List CombFilter
  | [], _ => (0, [])
  | c :: cs, u =>
      let r := combStep c u
      let rest := combParallel cs u
      (r.1 + rest.1, r.2 :: rest.2)

/-- Serial all-pass stage: pass the comb sum through each all-pass filter in
sequence (spec §4.4 step 2). -/
def apSerial : List AllPassFilter → ℚ → ℚ × List AllPassFilter
  | [], u => (u, [])
  | a :: rest, u =>
      let r := apStep a u
      let tail := apSerial rest r.1
      (tail.1, r.2 :: tail.2)

/-- Modelled from the spec: one network step (spec §4.4) — parallel combs,
then the serial all-pass cascade, returning the wet sample. -/
def networkStep (n : ReverbNetwork) (u : ℚ) : ℚ × ReverbNetwork :=
  let p := combParallel n.combs u
  let s := apSerial n.allpasses p.1
  (s.1, { combs := p.2, allpasses := s.2 })

/-- Clamp a parameter value into `[0,1]` (spec §6: values outside `[0,1]` are
clamped, not rejected). -/
def clamp01 (v : ℚ) : ℚ := max 0 (min 1 v)

/-- Modelled from the spec: base of the room-size-to-gain map (spec §4.2; the
exact constant is an acoustic-tuning choice left open by spec §9). -/
def gainOffset : ℚ := 7/10

/-- Modelled from the spec: slope of the room-size-to-gain map (spec §4.2; the
exact constant is an acoustic-tuning choice left open by spec §9). -/
def gainScale : ℚ := 28/100

/-- Modelled from the spec: comb feedback gain derived from the (clamped)
room-size parameter; always strictly below 1 (spec §3, §4.2). -/
def gainOf (room : ℚ) : ℚ := gainOffset + gainScale * room

/-- Modelled from the spec: the maximum stable feedback gain used in frozen
mode, approaching but never reaching 1 (spec §4.2). -/
def frozenGain : ℚ := 49/50

/-- Modelled from the spec: the fixed, non-user-exposed all-pass gain
(spec §4.3); magnitude below 1 for stability. -/
def apGain : ℚ := 1/2

/-- Modelled from the spec: comb-filter delay lengths in samples at 44100 Hz —
a fixed, mutually prime-ish constant set (spec §3; Schroeder/Moorer-derived
per spec §9). -/
def combTunings : List Nat := [1116, 1188, 1277, 1356, 1422, 1491]

/-- Modelled from the spec: all-pass delay lengths in samples at 44100 Hz
(spec §3, §9). -/
def apTunings : List Nat := [556, 441]

/-- Delay lengths scale linearly with the sample rate to preserve constant
delay times (spec §4.5 `construct`). -/
def scaleLen (sample_rate len : Nat) : Nat := len * sample_rate / 44100

/-- Modelled from the spec: `MoorerReverb`, the engine facade (spec §3, §4.5)
— missing source `moorer_verb.hpp`.  Owns the network and the current
parameter values. -/
structure MoorerReverb where
  sample_rate : Nat
  network : ReverbNetwork
  damping : ℚ
  room_size : ℚ
  wet_level : ℚ
  width : ℚ
  frozen : Bool
deriving Repr, DecidableEq

/-- A zeroed comb filter for a given delay length (buffers zero-initialised,
capacity one beyond the delay so every read satisfies the `read_at`
precondition). -/
def mkComb (room damp : ℚ) (len : Nat) : CombFilter :=
  { delay := { buffer := List.replicate (len + 1) 0, index := 0 }
    feedback_gain := gainOf room
    damping := damp
    filter_state := 0
    delay_length := len }

/-- A zeroed all-pass filter for a given delay length. -/
def mkAllPass (len : Nat) : AllPassFilter :=
  { delay := { buffer := List.replicate (len + 1) 0, index := 0 }
    gain := apGain
    delay_length := len }

/-- Modelled from the spec: `create(sample_rate)` (spec §4.5, §6) — allocates
the network sized from the sample rate, with zeroed delay lines and default
parameter values. -/
def create (sample_rate : Nat) : MoorerReverb :=
  { sample_rate := sample_rate
    network :=
      { combs := combTunings.map (fun len => mkComb (1/2) (1/2) (scaleLen sample_rate len))
        allpasses := apTunings.map (fun len => mkAllPass (scaleLen sample_rate len)) }
    damping := 1/2
    room_size := 1/2
    wet_level := 1/2
    width := 1
    frozen := false }

/-- Modelled from the spec: `set_damping` clamps the value into `[0,1]`,
stores it, and updates every comb filter's damping coefficient (spec §4.5). -/
def set_damping (v : ℚ) (e : MoorerReverb) : MoorerReverb :=
  let d := clamp01 v
  { e with
      damping := d
      network := { e.network with
        combs := e.network.combs.map (fun c => { c with damping := d }) } }

/-- Modelled from the spec: `set_room_size` clamps and stores the value; the
room-size-driven feedback-gain update is suppressed while frozen
(spec §3, §4.5). -/
def set_room_size (v : ℚ) (e : MoorerReverb) : MoorerReverb :=
  let r := clamp01 v
  if e.frozen then { e with room_size := r }
  else
    { e with
        room_size := r
        network := { e.network with
          combs := e.network.combs.map (fun c => { c with feedback_gain := gainOf r }) } }

/-- Modelled from the spec: `set_wet` clamps and stores the wet level
(spec §4.5). -/
def set_wet (v : ℚ) (e : MoorerReverb) : MoorerReverb :=
  { e with wet_level := clamp01 v }

/-- Modelled from the spec: `set_width` clamps and stores the stereo width
(spec §4.5). -/
def set_width (v : ℚ) (e : MoorerReverb) : MoorerReverb :=
  { e with width := clamp01 v }

/-- Modelled from the spec: `set_frozen` switches mode immediately — freezing
pins every comb feedback gain at the maximum stable value, unfreezing
recomputes the gains from the stored room size (spec §3, §4.2, §4.5). -/
def set_frozen (f : Bool) (e : MoorerReverb) : MoorerReverb :=
  if f then
    { e with
        frozen := true
        network := { e.network with
          combs := e.network.combs.map (fun c => { c with feedback_gain := frozenGain }) } }
  else
    { e with
        frozen := false
        network := { e.network with
          combs := e.network.combs.map
            (fun c => { c with feedback_gain := gainOf e.room_size }) } }

/-- Modelled from the spec: `destroy` releases the engine (spec §4.5, §6); in
the embedding the handle is simply dropped. -/
def destroy (_ : MoorerReverb) : Unit := ()

/-- Modelled from the spec: per-sample processing entry point (spec §4.5):
`wet = network(input)` and `output = input*(1-wet_level) + wet*wet_level`. -/
def processSample (e : MoorerReverb) (u : ℚ) : ℚ × MoorerReverb :=
  let r := networkStep e.network u
  (u * (1 - e.wet_level) + r.1 * e.wet_level, { e with network := r.2 })

/-- Modelled from the spec: `process(buffer)` runs every sample of the buffer
through the engine in order, producing the output buffer and the final
engine state (spec §4.5). -/
def processBuffer : MoorerReverb → List ℚ → List ℚ × MoorerReverb
  | e, [] => ([], e)
  | e, u :: us =>
      let r := processSample e u
      let rest := processBuffer r.2 us
      (r.1 :: rest.1, rest.2)

/-- The command-line harness of `src/fx/clib/test.cpp`: create at 44100 Hz,
set each parameter to its upper boundary value in order, destroy, return 0. -/
def testMain : Int :=
  let h0 := create 44100
  let h1 := set_damping 1 h0
  let h2 := set_frozen true h1
  let h3 := set_wet 1 h2
  let h4 := set_width 1 h3
  let h5 := set_room_size 1 h4
  let _u := destroy h5
  0

/-- The engine state reached by the harness just before `destroy`. -/
def harnessFinal : MoorerReverb :=
  set_room_size 1 (set_width 1 (set_wet 1 (set_frozen true (set_damping 1 (create 44100)))))

/-- Engine states reachable through the public interface: construction,
parameter setters, and processing. -/
inductive Reachable : MoorerReverb → Prop
  | init (sample_rate : Nat) : Reachable (create sample_rate)
  | damp (v : ℚ) (e : MoorerReverb) : Reachable e → Reachable (set_damping v e)
  | room (v : ℚ) (e : MoorerReverb) : Reachable e → Reachable (set_room_size v e)
  | wet (v : ℚ) (e : MoorerReverb) : Reachable e → Reachable (set_wet v e)
  | wide (v : ℚ) (e : MoorerReverb) : Reachable e → Reachable (set_width v e)
  | freeze (f : Bool) (e : MoorerReverb) : Reachable e → Reachable (set_frozen f e)
  | proc (us : List ℚ) (e : MoorerReverb) : Reachable e → Reachable (processBuffer e us).2

/-- Every sample in a list has magnitude at most `B`. -/
abbrev listAbsLe (B : ℚ) (l : List ℚ) : Prop := ∀ x ∈ l, |x| ≤ B

/-- A comb filter whose coefficients are in range and whose stored samples all
have magnitude at most `B`. -/
abbrev combGood (c : CombFilter) (B : ℚ) : Prop :=
  0 ≤ c.feedback_gain ∧ c.feedback_gain ≤ 1 ∧ 0 ≤ c.damping ∧ c.damping ≤ 1 ∧
    listAbsLe B c.delay.buffer ∧ |c.filter_state| ≤ B

/-- The all-pass cascade is well-conditioned for inputs of magnitude at most
`I`: each stage's gain has magnitude at most `1/2`, its buffer is bounded by
the stage's worst-case level `2*I`, and the next stage is well-conditioned for
that stage's output bound `5/2*I`. -/
def apChainGood : List AllPassFilter → ℚ → Prop
  | [], _ => True
  | a :: rest, I => |a.gain| ≤ 1/2 ∧ listAbsLe (2*I) a.delay.buffer ∧ apChainGood rest (5/2*I)

set_option linter.unusedVariables false in
instance apChainGoodDec : (l : List AllPassFilter) → (I : ℚ) → Decidable (apChainGood l I)
  | [], _ => isTrue trivial
  | a :: rest, I =>
      have i1 : Decidable (apChainGood rest (5/2*I)) := apChainGoodDec rest (5/2*I)
      @instDecidableAnd _ _ inferInstance (@instDecidableAnd _ _ inferInstance i1)

/-- Worst-case magnitude of the all-pass cascade output for inputs of
magnitude at most `I`: each stage multiplies the level bound by `5/2`. -/
def apOutBound : List AllPassFilter → ℚ → ℚ
  | [], I => I
  | _ :: rest, I => apOutBound rest (5/2*I)

/-- The engine is well-conditioned at level `B`: wet level in `[0,1]`, every
comb filter good at level `B`, and the all-pass cascade well-conditioned for
the comb-sum bound. -/
abbrev silentGood (e : MoorerReverb) (B : ℚ) : Prop :=
  0 ≤ B ∧ 0 ≤ e.wet_level ∧ e.wet_level ≤ 1 ∧
    (∀ c ∈ e.network.combs, combGood c B) ∧
    apChainGood e.network.allpasses ((e.network.combs.length : ℚ) * B)

/-- The fixed output-magnitude bound for a silent run from a state
well-conditioned at level `B`. -/
def silentOutBound (e : MoorerReverb) (B : ℚ) : ℚ :=
  apOutBound e.network.allpasses ((e.network.combs.length : ℚ) * B)

/-- The parameter invariant maintained by every reachable state: room size in
`[0,1]`, comb gains in `[0,1)`, damping coefficients in `[0,1]`, and frozen
states have every gain pinned at `frozenGain`. -/
abbrev ParamInv (e : MoorerReverb) : Prop :=
  0 ≤ e.room_size ∧ e.room_size ≤ 1 ∧
    (∀ c ∈ e.network.combs,
      0 ≤ c.feedback_gain ∧ c.feedback_gain < 1 ∧ 0 ≤ c.damping ∧ c.damping ≤ 1) ∧
    (e.frozen = true → ∀ c ∈ e.network.combs, c.feedback_gain = frozenGain)

/-- A small concrete engine state used to instantiate the verified theorems:
one comb filter and one all-pass filter over tiny zeroed delay lines. -/
def tinyE : MoorerReverb :=
  { sample_rate := 2
    network :=
      { combs := [{ delay := { buffer := [0, 0], index := 0 }
                    feedback_gain := 1/2
                    damping := 1/2
                    filter_state := 0
                    delay_length := 1 }]
        allpasses := [{ delay := { buffer := [0, 0], index := 0 }
                        gain := 1/2
                        delay_length := 1 }] }
    damping := 1/2
    room_size := 1/2
    wet_level := 1/2
    width := 1
    frozen := false }

/-- A small concrete delay line of capacity 4 used to instantiate the
delay-line theorems. -/
def dl4 : DelayLine := { buffer := [0, 0, 0, 0], index := 0 }

/-- The tiny engine with the wet level set to zero. -/
def tinyDry : MoorerReverb := set_wet 0 tinyE

/-- The tiny engine frozen. -/
def tinyFrozen : MoorerReverb := set_frozen true tinyE

/-! ### Delay-line lemmas -/

theorem DelayLine.capacity_write (dl : DelayLine) (x : ℚ) :
    (dl.write x).capacity = dl.capacity := by
  simp [DelayLine.write, DelayLine.capacity]

theorem DelayLine.index_write (dl : DelayLine) (x : ℚ) :
    (dl.write x).index = (dl.index + 1) % dl.capacity := rfl

theorem DelayLine.index_write_lt (dl : DelayLine) (x : ℚ)
    (h : dl.index < dl.capacity) : (dl.write x).index < (dl.write x).capacity := by
  rw [DelayLine.capacity_write, DelayLine.index_write]
  exact Nat.mod_lt _ (Nat.zero_lt_of_lt h)

theorem DelayLine.capacity_writeAll (xs : List ℚ) :
    ∀ dl : DelayLine, (dl.writeAll xs).capacity = dl.capacity := by
  induction xs with
  | nil => intro dl; rfl
  | cons y ys ih =>
      intro dl
      show ((dl.write y).writeAll ys).capacity = dl.capacity
      rw [ih (dl.write y), DelayLine.capacity_write]

theorem DelayLine.index_writeAll_lt (xs : List ℚ) :
    ∀ dl : DelayLine, dl.index < dl.capacity →
      (dl.writeAll xs).index < (dl.writeAll xs).capacity := by
  induction xs with
  | nil => intro dl h; exact h
  | cons y ys ih =>
      intro dl h
      exact ih (dl.write y) (DelayLine.index_write_lt dl y h)

/-- An element fetched with a default is either a member of the list or the
default itself. -/
theorem getD_mem_or (l : List ℚ) (i : Nat) : l.getD i 0 ∈ l ∨ l.getD i 0 = 0 := by
  induction l generalizing i with
  | nil => right; rfl
  | cons a t ih =>
      cases i with
      | zero => left; simp [List.getD]
      | succ j =>
          rcases ih j with h | h
          · left
            simpa [List.getD] using List.mem_cons_of_mem a (by simpa [List.getD] using h)
          · right; simpa [List.getD] using h

theorem getD_set_same (l : List ℚ) (i : Nat) (x : ℚ) (h : i < l.length) :
    (l.set i x).getD i 0 = x := by
  induction l generalizing i with
  | nil => simp at h
  | cons a t ih =>
      cases i with
      | zero => rfl
      | succ j => exact ih j (by simpa using h)

theorem getD_set_ne (l : List ℚ) (i j : Nat) (x : ℚ) (h : i ≠ j) :
    (l.set i x).getD j 0 = l.getD j 0 := by
  induction l generalizing i j with
  | nil => rfl
  | cons a t ih =>
      cases i with
      | zero =>
          cases j with
          | zero => exact absurd rfl h
          | succ k => rfl
      | succ m =>
          cases j with
          | zero => rfl
          | succ k => exact ih m k (fun hmk => h (by rw [hmk]))

/-- A modulus with a variable divisor, for values below twice the divisor. -/
theorem mod_two_chunks (a n : Nat) (_hn : 0 < n) (h : a < 2 * n) :
    a % n = if a < n then a else a - n := by
  by_cases hlt : a < n
  · simp [hlt, Nat.mod_eq_of_lt hlt]
  · have hge : n ≤ a := Nat.le_of_not_lt hlt
    rw [Nat.mod_eq_sub_mod hge, Nat.mod_eq_of_lt (by omega)]
    simp [hlt]

/-- Reading one sample behind the write position right after a write recovers
the sample just written. -/
theorem DelayLine.read_at_write_one (dl : DelayLine) (x : ℚ)
    (h : dl.index < dl.capacity) : (dl.write x).read_at 1 = x := by
  have h' : dl.index < dl.buffer.length := h
  have hn : 0 < dl.buffer.length := Nat.zero_lt_of_lt h'
  unfold DelayLine.read_at DelayLine.write DelayLine.capacity
  simp only [List.length_set]
  have hidx : ((dl.index + 1) % dl.buffer.length + (dl.buffer.length - 1))
      % dl.buffer.length = dl.index := by
    rcases Nat.lt_or_ge (dl.index + 1) dl.buffer.length with hlt | hge
    · rw [Nat.mod_eq_of_lt hlt, mod_two_chunks _ _ hn (by omega)]
      split <;> omega
    · have heq : dl.index + 1 = dl.buffer.length := by omega
      rw [heq, Nat.mod_self, Nat.zero_add, Nat.mod_eq_of_lt (by omega)]
      omega
  rw [hidx]
  exact getD_set_same dl.buffer dl.index x h'

/-- Reading strictly more than one sample back commutes with a write: the
write only disturbs depth one. -/
theorem DelayLine.read_at_write_shift (dl : DelayLine) (x : ℚ) (k : Nat)
    (h : dl.index < dl.capacity) (hk : k + 2 ≤ dl.capacity) :
    (dl.write x).read_at (k + 2) = dl.read_at (k + 1) := by
  have h' : dl.index < dl.buffer.length := h
  have hk' : k + 2 ≤ dl.buffer.length := hk
  have hn : 0 < dl.buffer.length := Nat.zero_lt_of_lt h'
  unfold DelayLine.read_at DelayLine.write DelayLine.capacity
  simp only [List.length_set]
  have hpos : ((dl.index + 1) % dl.buffer.length + (dl.buffer.length - (k + 2)))
      % dl.buffer.length
      = (dl.index + (dl.buffer.length - (k + 1))) % dl.buffer.length := by
    rcases Nat.lt_or_ge (dl.index + 1) dl.buffer.length with hlt | hge
    · rw [Nat.mod_eq_of_lt hlt,
        mod_two_chunks _ _ hn (by omega), mod_two_chunks _ _ hn (by omega)]
      split <;> split <;> omega
    · have heq : dl.index + 1 = dl.buffer.length := by omega
      rw [heq, Nat.mod_self, Nat.zero_add,
        Nat.mod_eq_of_lt (by omega), mod_two_chunks _ _ hn (by omega)]
      split <;> omega
  rw [hpos]
  have hne : dl.index ≠ (dl.index + (dl.buffer.length - (k + 1))) % dl.buffer.length := by
    rw [mod_two_chunks _ _ hn (by omega)]
    split <;> omega
  rw [getD_set_ne dl.buffer dl.index _ x hne]

/-- Round trip: the sample written `j+1` steps ago is recovered by
`read_at (j+1)`, as long as fewer samples than the capacity were written
since. -/
theorem DelayLine.read_at_writeAll (dl : DelayLine) (x : ℚ) (ys : List ℚ)
    (h : dl.index < dl.capacity) (hlen : ys.length + 1 < dl.capacity) :
    ((dl.write x).writeAll ys).read_at (ys.length + 1) = x := by
  induction ys using List.reverseRecOn with
  | nil => exact dl.read_at_write_one x h
  | append_singleton ys y ih =>
      have hcap : ((dl.write x).writeAll ys).capacity = dl.capacity := by
        rw [DelayLine.capacity_writeAll, DelayLine.capacity_write]
      have hlt : ((dl.write x).writeAll ys).index < ((dl.write x).writeAll ys).capacity :=
        DelayLine.index_writeAll_lt ys (dl.write x) (dl.index_write_lt x h)
      have hstep : (dl.write x).writeAll (ys ++ [y])
          = ((dl.write x).writeAll ys).write y := by
        unfold DelayLine.writeAll
        rw [List.foldl_append]
        rfl
      have hlen' : ys.length + 1 < dl.capacity := by
        simp only [List.length_append, List.length_singleton] at hlen
        omega
      rw [hstep]
      have hshift := DelayLine.read_at_write_shift ((dl.write x).writeAll ys) y ys.length
        (by rw [hcap] at hlt ⊢; exact hlt) (by rw [hcap]; omega)
      simp only [List.length_append, List.length_singleton]
      have : ys.length + 1 + 1 = ys.length + 2 := rfl
      rw [this, hshift]
      exact ih hlen'

/-! ### Boundedness of the filter stages on silent input -/

/-- Any delayed read out of a buffer bounded by `B` is itself bounded by `B`. -/
theorem abs_read_le (dl : DelayLine) (B : ℚ) (d : Nat) (hB : 0 ≤ B)
    (h : listAbsLe B dl.buffer) : |dl.read_at d| ≤ B := by
  unfold DelayLine.read_at
  rcases getD_mem_or dl.buffer ((dl.index + (dl.capacity - d)) % dl.capacity) with hm | h0
  · exact h _ hm
  · rw [h0]; simpa using hB

/-- Setting one element preserves a uniform bound when the new element obeys
the bound. -/
theorem listAbsLe_set (l : List ℚ) (B x : ℚ) (i : Nat)
    (h : listAbsLe B l) (hx : |x| ≤ B) : listAbsLe B (l.set i x) := by
  intro y hy
  rcases List.mem_or_eq_of_mem_set hy with hm | rfl
  · exact h _ hm
  · exact hx

/-- Writing a bounded sample into a bounded delay line keeps it bounded. -/
theorem listAbsLe_write (dl : DelayLine) (B v : ℚ)
    (h : listAbsLe B dl.buffer) (hv : |v| ≤ B) : listAbsLe B (dl.write v).buffer :=
  listAbsLe_set dl.buffer B v dl.index h hv

/-- A convex combination of two values bounded by `B` is bounded by `B`. -/
theorem convex_abs_le (d s δ B : ℚ) (hδ0 : 0 ≤ δ) (hδ1 : δ ≤ 1)
    (hd : |d| ≤ B) (hs : |s| ≤ B) : |d * (1 - δ) + s * δ| ≤ B := by
  have h1 : |d * (1 - δ)| ≤ B * (1 - δ) := by
    rw [abs_mul, abs_of_nonneg (by linarith : (0:ℚ) ≤ 1 - δ)]
    nlinarith [abs_nonneg d]
  have h2 : |s * δ| ≤ B * δ := by
    rw [abs_mul, abs_of_nonneg hδ0]
    nlinarith [abs_nonneg s]
  calc |d * (1 - δ) + s * δ| ≤ |d * (1 - δ)| + |s * δ| := abs_add _ _
    _ ≤ B * (1 - δ) + B * δ := by linarith
    _ = B := by ring

/-- Scaling by a gain in `[0,1]` cannot increase magnitude. -/
theorem mul_gain_abs_le (x g B : ℚ) (hg0 : 0 ≤ g) (hg1 : g ≤ 1)
    (hx : |x| ≤ B) : |x * g| ≤ B := by
  rw [abs_mul, abs_of_nonneg hg0]
  nlinarith [abs_nonneg x]

/-- One silent comb step: the forward output is bounded by the state level
`B`, and the filter stays good at level `B` — the comb's energy level never
grows on silent input, for any feedback gain up to 1. -/
theorem combStep_silent_bound (c : CombFilter) (B : ℚ) (hB : 0 ≤ B)
    (hc : combGood c B) : |(combStep c 0).1| ≤ B ∧ combGood (combStep c 0).2 B := by
  obtain ⟨dl, g, δ, s, L⟩ := c
  obtain ⟨hg0, hg1, hδ0, hδ1, hbuf, hst⟩ := hc
  have hdB : |dl.read_at L| ≤ B := abs_read_le dl B L hB hbuf
  have hfB : |dl.read_at L * (1 - δ) + s * δ| ≤ B :=
    convex_abs_le _ _ _ _ hδ0 hδ1 hdB hst
  have hwB : |0 + (dl.read_at L * (1 - δ) + s * δ) * g| ≤ B := by
    rw [zero_add]
    exact mul_gain_abs_le _ _ _ hg0 hg1 hfB
  simp only [combStep]
  exact ⟨hdB, hg0, hg1, hδ0, hδ1, listAbsLe_write dl B _ hbuf hwB, hfB⟩

/-- The serial all-pass cascade maps inputs bounded by `I` to outputs bounded
by `apOutBound`, and stays well-conditioned at the same level. -/
theorem apSerial_silent_bound :
    ∀ (l : List AllPassFilter) (I u : ℚ), 0 ≤ I → |u| ≤ I → apChainGood l I →
      |(apSerial l u).1| ≤ apOutBound l I ∧ apChainGood (apSerial l u).2 I := by
  intro l
  induction l with
  | nil => intro I u hI hu _; exact ⟨hu, trivial⟩
  | cons a rest ih =>
      intro I u hI hu hchain
      obtain ⟨hg, hbuf, hrest⟩ := hchain
      have hdB : |a.delay.read_at a.delay_length| ≤ 2*I :=
        abs_read_le _ _ _ (by linarith) hbuf
      have hga : (0:ℚ) ≤ |a.gain| := abs_nonneg _
      have hout : |(-a.gain * u + a.delay.read_at a.delay_length)| ≤ 5/2*I := by
        have h1 : |(-a.gain * u)| ≤ 1/2 * I := by
          rw [abs_mul, abs_neg]
          nlinarith [abs_nonneg u, abs_le.1 hu]
        calc |(-a.gain * u + a.delay.read_at a.delay_length)|
            ≤ |(-a.gain * u)| + |a.delay.read_at a.delay_length| := abs_add _ _
          _ ≤ 1/2 * I + 2*I := by linarith
          _ = 5/2*I := by ring
      have hwrite : |u + a.gain * a.delay.read_at a.delay_length| ≤ 2*I := by
        have h2 : |a.gain * a.delay.read_at a.delay_length| ≤ I := by
          rw [abs_mul]
          nlinarith [abs_nonneg (a.delay.read_at a.delay_length)]
        calc |u + a.gain * a.delay.read_at a.delay_length|
            ≤ |u| + |a.gain * a.delay.read_at a.delay_length| := abs_add _ _
          _ ≤ I + I := by linarith
          _ = 2*I := by ring
      have ihs := ih (5/2*I) (-a.gain * u + a.delay.read_at a.delay_length)
        (by linarith) hout hrest
      simp only [apSerial, apStep, apOutBound, apChainGood]
      exact ⟨ihs.1, hg, listAbsLe_write _ _ _ hbuf hwrite, ihs.2⟩

/-- The parallel comb stage on silent input: the comb sum is bounded by the
number of combs times the state level, and every comb stays good. -/
theorem combParallel_silent_bound :
    ∀ (cs : List CombFilter) (B : ℚ), 0 ≤ B → (∀ c ∈ cs, combGood c B) →
      |(combParallel cs 0).1| ≤ (cs.length : ℚ) * B ∧
        ∀ c ∈ (combParallel cs 0).2, combGood c B := by
  intro cs
  induction cs with
  | nil =>
      intro B hB _
      constructor
      · simp [combParallel]
      · intro c hc; simp [combParallel] at hc
  | cons c cs ih =>
      intro B hB hall
      have hc := hall c (List.mem_cons_self c cs)
      have hcs : ∀ c' ∈ cs, combGood c' B := fun c' hc' => hall c' (List.mem_cons_of_mem _ hc')
      have h1 := combStep_silent_bound c B hB hc
      have h2 := ih B hB hcs
      constructor
      · simp only [combParallel, List.length_cons]
        calc |(combStep c 0).1 + (combParallel cs 0).1|
            ≤ |(combStep c 0).1| + |(combParallel cs 0).1| := abs_add _ _
          _ ≤ B + (cs.length : ℚ) * B := by linarith [h1.1, h2.1]
          _ = ((cs.length : ℚ) + 1) * B := by ring
          _ = (((cs.length + 1 : ℕ)) : ℚ) * B := by push_cast; ring
      · intro c' hc'
        simp only [combParallel] at hc'
        rcases List.mem_cons.1 hc' with rfl | hm
        · exact h1.2
        · exact h2.2 c' hm

/-- The cascade output bound is nonnegative for nonnegative input levels. -/
theorem apOutBound_nonneg : ∀ (l : List AllPassFilter) (I : ℚ), 0 ≤ I →
    0 ≤ apOutBound l I := by
  intro l
  induction l with
  | nil => intro I hI; exact hI
  | cons a rest ih => intro I hI; exact ih (5/2*I) (by linarith)

/-- The cascade output bound depends only on the number of stages. -/
theorem apOutBound_congr_length :
    ∀ (l₁ l₂ : List AllPassFilter) (I : ℚ), l₁.length = l₂.length →
      apOutBound l₁ I = apOutBound l₂ I := by
  intro l₁
  induction l₁ with
  | nil =>
      intro l₂ I h
      cases l₂ with
      | nil => rfl
      | cons b r => simp at h
  | cons a r ih =>
      intro l₂ I h
      cases l₂ with
      | nil => simp at h
      | cons b r₂ =>
          simp only [apOutBound]
          exact ih r₂ _ (by simpa using h)

theorem combParallel_length (cs : List CombFilter) (u : ℚ) :
    (combParallel cs u).2.length = cs.length := by
  induction cs with
  | nil => rfl
  | cons c cs ih => simp only [combParallel, List.length_cons, ih]

theorem apSerial_length : ∀ (l : List AllPassFilter) (u : ℚ),
    (apSerial l u).2.length = l.length := by
  intro l
  induction l with
  | nil => intro u; rfl
  | cons a rest ih => intro u; simp only [apSerial, List.length_cons, ih]

/-- One engine step on a silent input sample: the emitted output is bounded
by the fixed cascade bound, and the state stays well-conditioned at the same
level, with the same output bound. -/
theorem processSample_silent (e : MoorerReverb) (B : ℚ) (h : silentGood e B) :
    |(processSample e 0).1| ≤ silentOutBound e B ∧
      silentGood (processSample e 0).2 B ∧
      silentOutBound (processSample e 0).2 B = silentOutBound e B := by
  obtain ⟨hB, hw0, hw1, hcombs, hchain⟩ := h
  have hpar := combParallel_silent_bound e.network.combs B hB hcombs
  have hI : (0:ℚ) ≤ (e.network.combs.length : ℚ) * B := mul_nonneg (Nat.cast_nonneg _) hB
  have hser := apSerial_silent_bound e.network.allpasses
    ((e.network.combs.length : ℚ) * B) (combParallel e.network.combs 0).1 hI hpar.1 hchain
  have hbound0 : (0:ℚ) ≤ apOutBound e.network.allpasses ((e.network.combs.length : ℚ) * B) :=
    apOutBound_nonneg _ _ hI
  refine ⟨?_, ⟨hB, hw0, hw1, ?_, ?_⟩, ?_⟩
  · show |0 * (1 - e.wet_level) + (networkStep e.network 0).1 * e.wet_level| ≤ _
    have hwet : |(networkStep e.network 0).1|
        ≤ apOutBound e.network.allpasses ((e.network.combs.length : ℚ) * B) := hser.1
    rw [zero_mul, zero_add, abs_mul, abs_of_nonneg hw0]
    unfold silentOutBound
    nlinarith [abs_nonneg (networkStep e.network 0).1]
  · show ∀ c ∈ (networkStep e.network 0).2.combs, combGood c B
    exact hpar.2
  · show apChainGood (networkStep e.network 0).2.allpasses
      (((networkStep e.network 0).2.combs.length : ℚ) * B)
    have hlen : (networkStep e.network 0).2.combs.length = e.network.combs.length := by
      show (combParallel e.network.combs 0).2.length = _
      exact combParallel_length _ _
    rw [hlen]
    exact hser.2
  · show silentOutBound { e with network := (networkStep e.network 0).2 } B = silentOutBound e B
    unfold silentOutBound
    have hlen : (networkStep e.network 0).2.combs.length = e.network.combs.length := by
      show (combParallel e.network.combs 0).2.length = _
      exact combParallel_length _ _
    rw [hlen]
    exact apOutBound_congr_length _ _ _ (apSerial_length _ _)

/-- Running the engine over an all-zero buffer of any length: every emitted
output sample is bounded by the fixed bound, and the state stays
well-conditioned at the same level throughout. -/
theorem processBuffer_silent : ∀ (n : Nat) (e : MoorerReverb) (B : ℚ), silentGood e B →
    (∀ y ∈ (processBuffer e (List.replicate n 0)).1, |y| ≤ silentOutBound e B) ∧
      silentGood (processBuffer e (List.replicate n 0)).2 B := by
  intro n
  induction n with
  | zero =>
      intro e B h
      constructor
      · intro y hy; simp [processBuffer] at hy
      · simpa [processBuffer] using h
  | succ m ih =>
      intro e B h
      have hstep := processSample_silent e B h
      have hrest := ih (processSample e 0).2 B hstep.2.1
      constructor
      · intro y hy
        rw [List.replicate_succ] at hy
        simp only [processBuffer] at hy
        rcases List.mem_cons.1 hy with rfl | hm
        · exact hstep.1
        · have hmem := hrest.1 y hm
          rwa [hstep.2.2] at hmem
      · rw [List.replicate_succ]
        simp only [processBuffer]
        exact hrest.2

/-! ### Preservation of coefficients under processing -/

/-- A comb step never changes the feedback gain or the damping coefficient. -/
theorem combParallel_map_gd (cs : List CombFilter) (u : ℚ) :
    (combParallel cs u).2.map (fun c => (c.feedback_gain, c.damping))
      = cs.map (fun c => (c.feedback_gain, c.damping)) := by
  induction cs with
  | nil => rfl
  | cons c cs ih =>
      simp only [combParallel, List.map, ih, combStep]

/-- Processing a buffer leaves the room size, the frozen flag, the wet level,
and every comb's gain and damping coefficient untouched. -/
theorem processBuffer_params : ∀ (us : List ℚ) (e : MoorerReverb),
    (processBuffer e us).2.room_size = e.room_size ∧
      (processBuffer e us).2.frozen = e.frozen ∧
      (processBuffer e us).2.wet_level = e.wet_level ∧
      (processBuffer e us).2.network.combs.map (fun c => (c.feedback_gain, c.damping))
        = e.network.combs.map (fun c => (c.feedback_gain, c.damping)) := by
  intro us
  induction us with
  | nil => intro e; exact ⟨rfl, rfl, rfl, rfl⟩
  | cons u us ih =>
      intro e
      have h1 := ih (processSample e u).2
      simp only [processBuffer]
      refine ⟨?_, ?_, ?_, ?_⟩
      · rw [h1.1]; rfl
      · rw [h1.2.1]; rfl
      · rw [h1.2.2.1]; rfl
      · rw [h1.2.2.2]
        show (networkStep e.network u).2.combs.map _ = _
        exact combParallel_map_gd _ _

/-- Transfer a pointwise gain/damping property along an equality of the
projected lists. -/
theorem forall_gd_of_map_eq (P : ℚ → ℚ → Prop) (cs cs' : List CombFilter)
    (hmap : cs'.map (fun c => (c.feedback_gain, c.damping))
      = cs.map (fun c => (c.feedback_gain, c.damping)))
    (h : ∀ c ∈ cs, P c.feedback_gain c.damping) :
    ∀ c ∈ cs', P c.feedback_gain c.damping := by
  intro c' hc'
  have hm : (c'.feedback_gain, c'.damping)
      ∈ cs'.map (fun c => (c.feedback_gain, c.damping)) :=
    List.mem_map_of_mem _ hc'
  rw [hmap] at hm
  obtain ⟨c0, hc0, heq⟩ := List.mem_map.1 hm
  have h1 : c0.feedback_gain = c'.feedback_gain := congrArg Prod.fst heq
  have h2 : c0.damping = c'.damping := congrArg Prod.snd heq
  rw [← h1, ← h2]
  exact h c0 hc0

/-! ### Clamping and derived-coefficient facts -/

theorem clamp01_mem (v : ℚ) : 0 ≤ clamp01 v ∧ clamp01 v ≤ 1 := by
  unfold clamp01
  constructor
  · exact le_max_left 0 _
  · exact max_le (by norm_num) (min_le_left 1 v)

theorem clamp01_of_nonpos (v : ℚ) (h : v ≤ 0) : clamp01 v = 0 := by
  unfold clamp01
  rw [min_eq_right (by linarith : v ≤ 1), max_eq_left h]

theorem clamp01_of_one_le (v : ℚ) (h : 1 ≤ v) : clamp01 v = 1 := by
  unfold clamp01
  rw [min_eq_left h, max_eq_right (by norm_num : (0:ℚ) ≤ 1)]

theorem clamp01_zero : clamp01 0 = 0 := clamp01_of_nonpos 0 le_rfl

theorem clamp01_one : clamp01 1 = 1 := clamp01_of_one_le 1 le_rfl

/-- The room-size-to-gain map lands strictly inside `[0,1)` on `[0,1]`. -/
theorem gainOf_bounds (r : ℚ) (h0 : 0 ≤ r) (h1 : r ≤ 1) :
    0 ≤ gainOf r ∧ gainOf r < 1 := by
  unfold gainOf gainOffset gainScale
  constructor <;> nlinarith

theorem frozenGain_bounds : 0 ≤ frozenGain ∧ frozenGain < 1 := by
  unfold frozenGain; norm_num

/-- Every state reachable through the public interface satisfies the
parameter invariant. -/
theorem reachable_paramInv (e : MoorerReverb) (h : Reachable e) : ParamInv e := by
  induction h with
  | init sr =>
      refine ⟨by norm_num [create], by norm_num [create], ?_, ?_⟩
      · intro c hc
        simp only [create, List.mem_map] at hc
        obtain ⟨len, _, rfl⟩ := hc
        have hg := gainOf_bounds (1/2) (by norm_num) (by norm_num)
        exact ⟨hg.1, hg.2, by norm_num [mkComb], by norm_num [mkComb]⟩
      · intro hfro
        simp [create] at hfro
  | damp v e' hr ih =>
      obtain ⟨hr0, hr1, hgd, hfro⟩ := ih
      have hcl := clamp01_mem v
      refine ⟨hr0, hr1, ?_, ?_⟩
      · intro c hc
        have hc2 : c ∈ e'.network.combs.map (fun c0 => { c0 with damping := clamp01 v }) := hc
        obtain ⟨c0, hc0, rfl⟩ := List.mem_map.1 hc2
        have h0 := hgd c0 hc0
        exact ⟨h0.1, h0.2.1, hcl.1, hcl.2⟩
      · intro hf c hc
        have hf' : e'.frozen = true := hf
        have hc2 : c ∈ e'.network.combs.map (fun c0 => { c0 with damping := clamp01 v }) := hc
        obtain ⟨c0, hc0, rfl⟩ := List.mem_map.1 hc2
        exact hfro hf' c0 hc0
  | room v e' hr ih =>
      obtain ⟨hr0, hr1, hgd, hfro⟩ := ih
      have hcl := clamp01_mem v
      cases he : e'.frozen with
      | true =>
          have heq : set_room_size v e' = { e' with room_size := clamp01 v } := by
            simp [set_room_size, he]
          rw [heq]
          exact ⟨hcl.1, hcl.2, hgd, fun _ => hfro he⟩
      | false =>
          have heq : set_room_size v e' =
              { e' with
                room_size := clamp01 v,
                network :=
                  { e'.network with
                    combs := e'.network.combs.map
                        (fun c => { c with feedback_gain := gainOf (clamp01 v) }) } } := by
            simp [set_room_size, he]
          rw [heq]
          have hg := gainOf_bounds (clamp01 v) hcl.1 hcl.2
          refine ⟨hcl.1, hcl.2, ?_, ?_⟩
          · intro c hc
            obtain ⟨c0, hc0, rfl⟩ := List.mem_map.1 hc
            have h0 := hgd c0 hc0
            exact ⟨hg.1, hg.2, h0.2.2.1, h0.2.2.2⟩
          · intro hff
            exact absurd hff (by simp [he])
  | wet v e' hr ih => exact ih
  | wide v e' hr ih => exact ih
  | freeze f e' hr ih =>
      obtain ⟨hr0, hr1, hgd, hfro⟩ := ih
      cases f with
      | true =>
          have heq : set_frozen true e' =
              { e' with
                frozen := true,
                network :=
                  { e'.network with
                    combs := e'.network.combs.map
                        (fun c => { c with feedback_gain := frozenGain }) } } := by
            simp [set_frozen]
          rw [heq]
          refine ⟨hr0, hr1, ?_, ?_⟩
          · intro c hc
            obtain ⟨c0, hc0, rfl⟩ := List.mem_map.1 hc
            have h0 := hgd c0 hc0
            exact ⟨frozenGain_bounds.1, frozenGain_bounds.2, h0.2.2.1, h0.2.2.2⟩
          · intro _ c hc
            obtain ⟨c0, hc0, rfl⟩ := List.mem_map.1 hc
            rfl
      | false =>
          have heq : set_frozen false e' =
              { e' with
                frozen := false,
                network :=
                  { e'.network with
                    combs := e'.network.combs.map
                        (fun c => { c with feedback_gain := gainOf e'.room_size }) } } := by
            simp [set_frozen]
          rw [heq]
          have hg := gainOf_bounds e'.room_size hr0 hr1
          refine ⟨hr0, hr1, ?_, ?_⟩
          · intro c hc
            obtain ⟨c0, hc0, rfl⟩ := List.mem_map.1 hc
            have h0 := hgd c0 hc0
            exact ⟨hg.1, hg.2, h0.2.2.1, h0.2.2.2⟩
          · intro hff
            exact absurd hff (by simp)
  | proc us e' hr ih =>
      obtain ⟨hr0, hr1, hgd, hfro⟩ := ih
      have hp := processBuffer_params us e'
      refine ⟨?_, ?_, ?_, ?_⟩
      · rw [hp.1]; exact hr0
      · rw [hp.1]; exact hr1
      · exact forall_gd_of_map_eq
          (fun g δ => 0 ≤ g ∧ g < 1 ∧ 0 ≤ δ ∧ δ ≤ 1) _ _ hp.2.2.2 hgd
      · intro hf
        rw [hp.2.1] at hf
        exact forall_gd_of_map_eq (fun g _ => g = frozenGain) _ _ hp.2.2.2 (hfro hf)

/-! ### Claim theorems -/

/-- Claim C1: for every input sample processed by the engine, the emitted
output equals `input*(1-wet_level) + wet*wet_level`, where `wet` is computed
by feeding the same input sample to all comb filters in parallel, summing
their forward outputs, and passing that sum serially through each all-pass
filter in the fixed sequence. -/
theorem c1_engine_output_mix (e : MoorerReverb) (u : ℚ) :
    processSample e u =
      (u * (1 - e.wet_level)
          + (apSerial e.network.allpasses (combParallel e.network.combs u).1).1 * e.wet_level,
       { e with network :=
          { combs := (combParallel e.network.combs u).2
            allpasses := (apSerial e.network.allpasses (combParallel e.network.combs u).1).2 } }) :=
  rfl

/-- Claim C2: one comb-filter step reads the delayed sample `d` at the
filter's fixed delay length, updates the one-pole state to
`filtered = d*(1-damping) + filter_state*damping`, writes
`input + filtered*feedback_gain` into the delay line, and its forward output
is `d`, the undamped delayed read; gain, damping coefficient and delay length
are untouched. -/
theorem c2_comb_step (c : CombFilter) (u : ℚ) :
    (combStep c u).1 = c.delay.read_at c.delay_length ∧
    (combStep c u).2.filter_state
      = c.delay.read_at c.delay_length * (1 - c.damping) + c.filter_state * c.damping ∧
    (combStep c u).2.delay
      = c.delay.write (u + (c.delay.read_at c.delay_length * (1 - c.damping)
          + c.filter_state * c.damping) * c.feedback_gain) ∧
    (combStep c u).2.feedback_gain = c.feedback_gain ∧
    (combStep c u).2.damping = c.damping ∧
    (combStep c u).2.delay_length = c.delay_length :=
  ⟨rfl, rfl, rfl, rfl, rfl, rfl⟩

/-- Claim C3: one all-pass step reads the delayed sample `d`, returns output
`-gain*input + d`, and writes `input + gain*d` into the delay line; the gain
is a fixed design constant not exposed to the user — no step or public setter
ever changes an all-pass filter. -/
theorem c3_allpass_step (a : AllPassFilter) (u : ℚ) (e : MoorerReverb) (v : ℚ) (f : Bool) :
    (apStep a u).1 = -a.gain * u + a.delay.read_at a.delay_length ∧
    (apStep a u).2.delay = a.delay.write (u + a.gain * a.delay.read_at a.delay_length) ∧
    (apStep a u).2.gain = a.gain ∧
    (set_damping v e).network.allpasses = e.network.allpasses ∧
    (set_room_size v e).network.allpasses = e.network.allpasses ∧
    (set_wet v e).network.allpasses = e.network.allpasses ∧
    (set_width v e).network.allpasses = e.network.allpasses ∧
    (set_frozen f e).network.allpasses = e.network.allpasses := by
  refine ⟨rfl, rfl, rfl, rfl, ?_, rfl, rfl, ?_⟩
  · cases he : e.frozen <;> simp [set_room_size, he]
  · cases f <;> simp [set_frozen]

/-- Claim C4: from any well-conditioned engine state, a run of `process` on
an all-zero buffer of arbitrary length keeps the state's energy level
non-increasing (any sup-norm bound `B` on the stored samples remains a bound
for the whole run, frozen or not, since every comb gain is at most 1), and
every emitted output sample stays below the fixed bound
`silentOutBound e B` — bounded, non-growing energy, no divergence. -/
theorem c4_silent_stability (e : MoorerReverb) (B : ℚ) (n : Nat) (h : silentGood e B) :
    (∀ y ∈ (processBuffer e (List.replicate n 0)).1, |y| ≤ silentOutBound e B) ∧
      silentGood (processBuffer e (List.replicate n 0)).2 B :=
  processBuffer_silent n e B h

/-- Witness for C4 at a concrete tiny engine, level 1, four silent samples. -/
theorem c4_witness :
    silentGood tinyE 1 ∧
      ((∀ y ∈ (processBuffer tinyE (List.replicate 4 0)).1, |y| ≤ silentOutBound tinyE 1) ∧
        silentGood (processBuffer tinyE (List.replicate 4 0)).2 1) :=
  have h : silentGood tinyE 1 := by
    norm_num [silentGood, tinyE, combGood, apChainGood, listAbsLe, abs_le]
  ⟨h, c4_silent_stability tinyE 1 4 h⟩

/-- Claim C5: in every reachable engine state, every comb filter's feedback
gain `g` satisfies `0 ≤ g < 1` strictly and its damping coefficient lies in
`[0,1]`; when frozen, every gain is pinned to the maximum stable value
`frozenGain`, which is strictly below 1. -/
theorem c5_reachable_gain_invariant (e : MoorerReverb) (h : Reachable e) :
    (∀ c ∈ e.network.combs,
        0 ≤ c.feedback_gain ∧ c.feedback_gain < 1 ∧ 0 ≤ c.damping ∧ c.damping ≤ 1) ∧
      (e.frozen = true → ∀ c ∈ e.network.combs, c.feedback_gain = frozenGain) ∧
      frozenGain < 1 := by
  have hp := reachable_paramInv e h
  exact ⟨hp.2.2.1, hp.2.2.2, frozenGain_bounds.2⟩

/-- Witness for C5 at the reachable state `set_frozen true (create 44100)`. -/
theorem c5_witness :
    (∀ c ∈ (set_frozen true (create 44100)).network.combs,
        0 ≤ c.feedback_gain ∧ c.feedback_gain < 1 ∧ 0 ≤ c.damping ∧ c.damping ≤ 1) ∧
      ((set_frozen true (create 44100)).frozen = true →
        ∀ c ∈ (set_frozen true (create 44100)).network.combs, c.feedback_gain = frozenGain) ∧
      frozenGain < 1 :=
  c5_reachable_gain_invariant (set_frozen true (create 44100))
    (Reachable.freeze true (create 44100) (Reachable.init 44100))

/-- Claim C6: for every parameter setter and every value outside `[0,1]`, the
call behaves identically, for all subsequent processing, to calling the
setter with the nearest bound — the resulting engine states are equal. -/
theorem c6_setter_clamp (e : MoorerReverb) (v : ℚ) :
    (v ≤ 0 →
      set_damping v e = set_damping 0 e ∧ set_room_size v e = set_room_size 0 e ∧
        set_wet v e = set_wet 0 e ∧ set_width v e = set_width 0 e) ∧
    (1 ≤ v →
      set_damping v e = set_damping 1 e ∧ set_room_size v e = set_room_size 1 e ∧
        set_wet v e = set_wet 1 e ∧ set_width v e = set_width 1 e) := by
  constructor
  · intro hv
    have h := clamp01_of_nonpos v hv
    refine ⟨?_, ?_, ?_, ?_⟩ <;>
      simp [set_damping, set_room_size, set_wet, set_width, h, clamp01_zero]
  · intro hv
    have h := clamp01_of_one_le v hv
    refine ⟨?_, ?_, ?_, ?_⟩ <;>
      simp [set_damping, set_room_size, set_wet, set_width, h, clamp01_one]

/-- Witness for C6: `set_damping (-1)` equals `set_damping 0` and
`set_damping 2` equals `set_damping 1` (and likewise for all setters) on a
concrete engine. -/
theorem c6_witness :
    ((-1 : ℚ) ≤ 0 ∧
      (set_damping (-1) tinyE = set_damping 0 tinyE ∧
        set_room_size (-1) tinyE = set_room_size 0 tinyE ∧
        set_wet (-1) tinyE = set_wet 0 tinyE ∧
        set_width (-1) tinyE = set_width 0 tinyE)) ∧
    ((1 : ℚ) ≤ 2 ∧
      (set_damping 2 tinyE = set_damping 1 tinyE ∧
        set_room_size 2 tinyE = set_room_size 1 tinyE ∧
        set_wet 2 tinyE = set_wet 1 tinyE ∧
        set_width 2 tinyE = set_width 1 tinyE)) :=
  ⟨⟨by norm_num, (c6_setter_clamp tinyE (-1)).1 (by norm_num)⟩,
   ⟨by norm_num, (c6_setter_clamp tinyE 2).2 (by norm_num)⟩⟩

/-- Claim C7: with the wet level set to 0, processing any input buffer
produces output equal to the input — a dry pass-through, exact in the
rational model — for every room size and damping setting (the statement
quantifies over every such engine state). -/
theorem c7_wet_zero_passthrough : ∀ (us : List ℚ) (e : MoorerReverb),
    e.wet_level = 0 → (processBuffer e us).1 = us := by
  intro us
  induction us with
  | nil => intro e h; rfl
  | cons u us ih =>
      intro e h
      simp only [processBuffer]
      have h1 : (processSample e u).1 = u := by
        show u * (1 - e.wet_level) + (networkStep e.network u).1 * e.wet_level = u
        rw [h]; ring
      have h2 : (processSample e u).2.wet_level = 0 := h
      rw [h1, ih _ h2]

/-- Witness for C7 on a concrete engine with wet level 0 and input `[1, 2]`. -/
theorem c7_witness : tinyDry.wet_level = 0 ∧ (processBuffer tinyDry [1, 2]).1 = [1, 2] :=
  have h : tinyDry.wet_level = 0 := by simp [tinyDry, set_wet, clamp01_zero]
  ⟨h, c7_wet_zero_passthrough [1, 2] tinyDry h⟩

/-- Projecting the gains out of a gain-overwriting map yields the constant
list. -/
theorem map_gain_update (cs : List CombFilter) (g : ℚ) :
    (cs.map (fun c => { c with feedback_gain := g })).map (fun c => c.feedback_gain)
      = cs.map (fun _ => g) := by
  induction cs with
  | nil => rfl
  | cons c cs ih => simp [ih]

/-- Claim C8: while frozen, `set_room_size` leaves the comb feedback gains
unchanged (room-size-driven gain updates are suppressed); `set_frozen`
switches mode immediately with no intermediate state, and `set_frozen false`
resumes the room-size-driven gains. -/
theorem c8_frozen_suppresses_room_gains (e : MoorerReverb) (v : ℚ) (f : Bool) :
    (e.frozen = true →
      (set_room_size v e).network.combs.map (fun c => c.feedback_gain)
        = e.network.combs.map (fun c => c.feedback_gain)) ∧
    (set_frozen f e).frozen = f ∧
    (set_frozen false e).network.combs.map (fun c => c.feedback_gain)
      = e.network.combs.map (fun _ => gainOf e.room_size) := by
  refine ⟨?_, ?_, ?_⟩
  · intro hf
    simp [set_room_size, hf]
  · cases f <;> simp [set_frozen]
  · have hc : (set_frozen false e).network.combs
        = e.network.combs.map (fun c => { c with feedback_gain := gainOf e.room_size }) := by
      simp [set_frozen]
    rw [hc]
    exact map_gain_update e.network.combs (gainOf e.room_size)

/-- Witness for C8 on a concrete frozen engine. -/
theorem c8_witness :
    tinyFrozen.frozen = true ∧
      ((set_room_size (3/4) tinyFrozen).network.combs.map (fun c => c.feedback_gain)
          = tinyFrozen.network.combs.map (fun c => c.feedback_gain) ∧
        (set_frozen true tinyFrozen).frozen = true ∧
        (set_frozen false tinyFrozen).network.combs.map (fun c => c.feedback_gain)
          = tinyFrozen.network.combs.map (fun _ => gainOf tinyFrozen.room_size)) := by
  have hf : tinyFrozen.frozen = true := by simp [tinyFrozen, set_frozen]
  refine ⟨hf, ?_⟩
  have h := c8_frozen_suppresses_room_gains tinyFrozen (3/4) true
  exact ⟨h.1 hf, h.2.1, h.2.2⟩

/-- Claim C9: `write(sample)` stores the sample at the current write index and
advances the index modulo the fixed capacity with no failure mode; under the
precondition `0 ≤ delay_samples < capacity`, `read_at(delay_samples)` returns
the sample stored `delay_samples` behind the current write position (the
sample written `delay_samples` writes ago); the capacity never changes. -/
theorem c9_delay_line (dl : DelayLine) (x : ℚ) (ys : List ℚ) :
    (dl.write x).capacity = dl.capacity ∧
    (dl.write x).index = (dl.index + 1) % dl.capacity ∧
    (dl.index < dl.capacity → (dl.write x).buffer.getD dl.index 0 = x) ∧
    (dl.index < dl.capacity → ys.length + 1 < dl.capacity →
      ((dl.write x).writeAll ys).read_at (ys.length + 1) = x) := by
  refine ⟨dl.capacity_write x, rfl, ?_, ?_⟩
  · intro h
    exact getD_set_same dl.buffer dl.index x h
  · intro h hlen
    exact dl.read_at_writeAll x ys h hlen

/-- Witness for C9: on a capacity-4 delay line, after writing 5 and then two
more samples, reading 3 samples back recovers 5. -/
theorem c9_witness :
    dl4.index < dl4.capacity ∧ ([7, 9] : List ℚ).length + 1 < dl4.capacity ∧
      ((dl4.write 5).writeAll [7, 9]).read_at (([7, 9] : List ℚ).length + 1) = 5 :=
  ⟨by decide, by decide, (c9_delay_line dl4 5 [7, 9]).2.2.2 (by decide) (by decide)⟩

/-- Claim C10: the harness of `src/fx/clib/test.cpp` — `create(44100)`, then
each setter at its boundary value 1.0 (and `frozen = true`) in the order
damping, frozen, wet, width, room size, then `destroy` on a handle that never
processed audio — runs to completion and returns 0, with every boundary value
accepted and stored. -/
theorem c10_harness_sequence :
    testMain = 0 ∧ harnessFinal.damping = 1 ∧ harnessFinal.frozen = true ∧
      harnessFinal.wet_level = 1 ∧ harnessFinal.width = 1 ∧ harnessFinal.room_size = 1 := by
  refine ⟨rfl, ?_, ?_, ?_, ?_, ?_⟩ <;>
    simp [harnessFinal, set_room_size, set_width, set_wet, set_frozen, set_damping,
      create, clamp01_one]

end fx
